import Mathlib

/-!
# Verification of the appointment-management logic

Shallow embedding of the non-presentational logic of the admin dashboard:

* the appointment record, derived views (status filter, search filter,
  aggregate stats) and the lifecycle handlers (approve / decline /
  mark-completed / refund) of `EnhancedAppointmentManagement.tsx`;
* the month-grid calendar generation of the same component;
* the generic column sort (`sortedAppointments` / `requestSort`) of the
  appointment list view in `Layout.tsx`.

Timestamps (Firestore `Timestamp` / `serverTimestamp()`) are modelled as
natural numbers, with `Option Nat` for nullable timestamp fields; the
server-assigned timestamp of a write is passed in as an explicit `now`
argument.  Currency amounts (JS `number`) are modelled as rationals, with
`Number.prototype.toFixed(2)` modelled as exact decimal rounding,
half away from zero.
-/

namespace EAM

/-- The `status` enum of an appointment:
`"pending" | "confirmed" | "completed" | "cancelled" | "paid"`. -/
inductive Status where
  | pending
  | confirmed
  | completed
  | cancelled
  | paid
deriving DecidableEq, Repr

/-- The `paymentStatus` enum: `"paid" | "pending" | "refunded"`. -/
inductive PaymentStatus where
  | paid
  | pending
  | refunded
deriving DecidableEq, Repr

/-- The `Appointment` interface of `EnhancedAppointmentManagement.tsx`.
Nullable fields are `Option`; timestamps are `Nat`. -/
structure Appointment where
  id : String
  adminNotes : Option String
  amount : ℚ
  appointmentDate : Option Nat
  cancellationReason : Option String
  cancelledAt : Option Nat
  confirmedAt : Option Nat
  createdAt : Option Nat
  duration : ℚ
  notes : Option String
  paidAt : Option Nat
  paymentMethod : String
  paymentStatus : PaymentStatus
  paymentTransactionId : String
  serviceCategory : String
  serviceId : String
  serviceName : String
  status : Status
  timeSlot : String
  updatedAt : Option Nat
  userEmail : String
  userId : String
  userName : String
  userPhone : String
deriving DecidableEq, Repr

/-- The four view-mode tabs of the appointment page. -/
inductive ViewMode where
  | pending
  | confirmed
  | all
  | calendar
deriving DecidableEq, Repr

/-- Case-insensitive substring test, embedding
`hay.toLowerCase().includes(needle.toLowerCase())`. -/
def includesCI (hay needle : String) : Bool :=
  decide ((needle.map Char.toLower).toList <:+: (hay.map Char.toLower).toList)

/-- The `filteredAppointments` memo: first the view-mode filter
(`pending`: `status === "pending" || confirmedAt === null`;
`confirmed`: `status === "confirmed" || status === "paid"`;
other modes: pass-through), then, when `searchTerm` is non-empty
(JS truthiness of a string), the case-insensitive search over
`userName`, `userEmail` and `serviceName`. -/
def filteredAppointments (appointments : List Appointment) (viewMode : ViewMode)
    (searchTerm : String) : List Appointment :=
  let filtered :=
    match viewMode with
    | .pending =>
      appointments.filter (fun app => app.status == .pending || app.confirmedAt == none)
    | .confirmed =>
      appointments.filter (fun app => app.status == .confirmed || app.status == .paid)
    | _ => appointments
  if searchTerm = "" then
    filtered
  else
    filtered.filter (fun app =>
      includesCI app.userName searchTerm ||
      includesCI app.userEmail searchTerm ||
      includesCI app.serviceName searchTerm)

/-- The record returned by the `stats` memo. -/
structure Stats where
  pending : Nat
  confirmed : Nat
  completed : Nat
  totalRevenue : ℚ
  pendingPayments : ℚ
deriving DecidableEq, Repr

/-- The `stats` memo.  Its only dependency is the full `appointments`
array (dependency list `[appointments]`); the sums embed
`.filter(...).reduce((sum, app) => sum + app.amount, 0)`. -/
def stats (appointments : List Appointment) : Stats :=
  { pending :=
      (appointments.filter (fun app => app.status == .pending || app.confirmedAt == none)).length
    confirmed :=
      (appointments.filter (fun app => app.status == .confirmed || app.status == .paid)).length
    completed :=
      (appointments.filter (fun app => app.status == .completed)).length
    totalRevenue :=
      (appointments.filter (fun app => app.paymentStatus == .paid)).foldl
        (fun sum app => sum + app.amount) 0
    pendingPayments :=
      (appointments.filter (fun app => app.paymentStatus == .pending)).foldl
        (fun sum app => sum + app.amount) 0 }

/-- The stats value the component holds for a given UI state: the memo
recomputes from the full `appointments` array only; `viewMode` and
`searchTerm` are not dependencies of the memo. -/
def statsFor (appointments : List Appointment) (_viewMode : ViewMode)
    (_searchTerm : String) : Stats :=
  stats appointments

/-- `handleApprove`: requires a selected appointment, then writes
`status: "confirmed"`, `confirmedAt: serverTimestamp()`,
`adminNotes: adminNotes || null`, `updatedAt: serverTimestamp()`.
`none` models "no write issued". -/
def handleApprove (selectedAppointment : Option Appointment) (adminNotes : String)
    (now : Nat) : Option Appointment :=
  match selectedAppointment with
  | none => none
  | some a => some { a with
      status := .confirmed
      confirmedAt := some now
      adminNotes := if adminNotes = "" then none else some adminNotes
      updatedAt := some now }

/-- `handleDecline`: requires a selected appointment; the `prompt` result is
modelled as `Option String` (`none` = dialog cancelled).  JS `if (!reason)
return` aborts on `null` and on the empty string.  Otherwise writes
`status: "cancelled"`, `cancelledAt`, `cancellationReason: reason`,
`adminNotes: adminNotes || null`, `updatedAt`. -/
def handleDecline (selectedAppointment : Option Appointment) (reason : Option String)
    (adminNotes : String) (now : Nat) : Option Appointment :=
  match selectedAppointment with
  | none => none
  | some a =>
    match reason with
    | none => none
    | some r =>
      if r = "" then none
      else some { a with
        status := .cancelled
        cancelledAt := some now
        cancellationReason := some r
        adminNotes := if adminNotes = "" then none else some adminNotes
        updatedAt := some now }

/-- `handleMarkCompleted`: gated by a `confirm` dialog, then writes
`status: "completed"` and `updatedAt`. -/
def handleMarkCompleted (a : Appointment) (confirmed : Bool) (now : Nat) :
    Option Appointment :=
  if confirmed then
    some { a with status := .completed, updatedAt := some now }
  else
    none

/-- Integer rounding of a rational, half away from zero (for the
non-negative amounts at hand this is round-half-up), modelling the
rounding performed by `Number.prototype.toFixed`. -/
def jsRound (q : ℚ) : ℤ :=
  if q < 0 then -(Rat.floor (-q + 1/2)) else Rat.floor (q + 1/2)

/-- The value displayed by `x.toFixed(2)`: `x` rounded to two decimal
places (exact decimal semantics). -/
def round2 (q : ℚ) : ℚ :=
  (jsRound (q * 100) : ℚ) / 100

/-- Two-decimal rendering of an amount of `c` cents, the string produced
by `(c / 100).toFixed(2)` for `c ≥ 0`. -/
def centsToString (c : ℤ) : String :=
  let n := c.natAbs
  let frac := n % 100
  (if c < 0 then "-" else "") ++ toString (n / 100) ++ "." ++
    (if frac < 10 then "0" else "") ++ toString frac

/-- Embedding of `q.toFixed(2)`. -/
def toFixed2 (q : ℚ) : String :=
  centsToString (jsRound (q * 100))

/-- Rendering of a JS number as interpolated into a template literal.
The amounts in this program are non-negative; integers print without a
decimal point, other values via their two-decimal rendering (sufficient
for the cent-denominated amounts this program displays). -/
def jsNumToString (q : ℚ) : String :=
  if q.den = 1 then toString q.num else toFixed2 q

/-- The text of the `confirm` dialog shown by `handleRefund`. -/
def refundDialog (a : Appointment) : String :=
  "Refund R" ++ jsNumToString a.amount ++
    "?\n\nNote: A 10% cancellation fee (R" ++ toFixed2 (a.amount * (1/10)) ++
    ") will be deducted.\nRefund amount: R" ++ toFixed2 (a.amount * (9/10))

/-- `handleRefund`: after the operator confirms the dialog, writes
`paymentStatus: "refunded"`, `status: "cancelled"`, `cancelledAt`,
`cancellationReason: "Refund requested by patient"`, `updatedAt`.
No other field is touched; in particular `amount` is not rewritten and no
computed refund amount is persisted. -/
def handleRefund (a : Appointment) (confirmRefund : Bool) (now : Nat) :
    Option Appointment :=
  if confirmRefund then
    some { a with
      paymentStatus := .refunded
      status := .cancelled
      cancelledAt := some now
      cancellationReason := some "Refund requested by patient"
      updatedAt := some now }
  else
    none

/-- The visibility condition of the "Process Refund" button in the detail
modal: `paymentStatus === "paid" && status !== "cancelled"`. -/
def refundButtonVisible (a : Appointment) : Bool :=
  a.paymentStatus == .paid && a.status != .cancelled

end EAM

namespace Calendar

/-- A calendar date as JS `Date` exposes it: `getFullYear()`,
`getMonth()` (0-based, 0 = January), `getDate()` (1-based). -/
structure CDate where
  year : Nat
  month : Nat
  day : Nat
deriving DecidableEq, Repr

/-- Gregorian leap-year rule (the rule JS `Date` uses). -/
def isLeap (y : Nat) : Bool :=
  (y % 4 == 0 && y % 100 != 0) || y % 400 == 0

/-- Number of days in month `m` (0-based) of year `y`; the value of
`new Date(y, m + 1, 0).getDate()`. -/
def daysInMonthCount (y m : Nat) : Nat :=
  match m with
  | 0 => 31
  | 1 => if isLeap y then 29 else 28
  | 2 => 31
  | 3 => 30
  | 4 => 31
  | 5 => 30
  | 6 => 31
  | 7 => 31
  | 8 => 30
  | 9 => 31
  | 10 => 30
  | _ => 31

def daysInYear (y : Nat) : Nat :=
  365 + (if isLeap y then 1 else 0)

/-- Days in all years before `y` (from year 0). -/
def daysBeforeYear : Nat → Nat
  | 0 => 0
  | y + 1 => daysBeforeYear y + daysInYear y

/-- Days in the months of year `y` strictly before month `m`. -/
def daysBeforeMonth (y : Nat) : Nat → Nat
  | 0 => 0
  | m + 1 => daysBeforeMonth y m + daysInMonthCount y m

/-- Linear day count of a date (day 0 = 0000-01-01). -/
def dayNumber (c : CDate) : Nat :=
  daysBeforeYear c.year + daysBeforeMonth c.year c.month + (c.day - 1)

/-- `Date.prototype.getDay()`: 0 = Sunday … 6 = Saturday.  The offset is
fixed by 1970-01-01 being a Thursday (`getDay() = 4`). -/
def dayOfWeek (c : CDate) : Nat :=
  (dayNumber c + 6) % 7

/-- Year/month one month earlier. -/
def prevMonthOf (y m : Nat) : Nat × Nat :=
  if m = 0 then (y - 1, 11) else (y, m - 1)

/-- Year/month one month later. -/
def nextMonthOf (y m : Nat) : Nat × Nat :=
  if m = 11 then (y + 1, 0) else (y, m + 1)

/-- `d.setDate(d.getDate() + 1)` on a valid date: the next calendar day. -/
def nextDay (c : CDate) : CDate :=
  if c.day < daysInMonthCount c.year c.month then
    ⟨c.year, c.month, c.day + 1⟩
  else
    let (ny, nm) := nextMonthOf c.year c.month
    ⟨ny, nm, 1⟩

/-- `j` successive applications of `nextDay`. -/
def nthNext : Nat → CDate → CDate
  | 0, c => c
  | j + 1, c => nthNext j (nextDay c)

/-- The date `i` days before the 1st of month `m` of year `y`
(`new Date(y, m, 1 - i)` normalised by JS `Date`), for `1 ≤ i ≤ 28`: it
falls in the previous month. -/
def backFrom1st (y m i : Nat) : CDate :=
  let (py, pm) := prevMonthOf y m
  ⟨py, pm, daysInMonthCount py pm + 1 - i⟩

/-- The `while (daysInMonth.length % 7 !== 0)` padding loop: repeatedly
append the day after the current last cell.  The loop adds at most six
cells, so fuel 7 is never exhausted. -/
def padWhile : Nat → List CDate → List CDate
  | 0, acc => acc
  | fuel + 1, acc =>
    if acc.length % 7 = 0 then acc
    else
      match acc.getLast? with
      | none => acc
      | some last => padWhile fuel (acc ++ [nextDay last])

/-- The `daysInMonth` grid built for the calendar view of month `m`
(0-based) of year `y`: leading days back to the previous Sunday, every
day of the month, then padding to a multiple of seven cells. -/
def monthGrid (y m : Nat) : List CDate :=
  let d0 := dayOfWeek ⟨y, m, 1⟩
  let leading := (List.range d0).map (fun j => backFrom1st y m (d0 - j))
  let monthDays := (List.range (daysInMonthCount y m)).map
    (fun i => (⟨y, m, i + 1⟩ : CDate))
  padWhile 7 (leading ++ monthDays)

/-- The current-month marker of a grid cell:
`day.getMonth() === currentDate.getMonth()`; non-current cells are
rendered non-interactive (no day click). -/
def isCurrentMonth (c : CDate) (m : Nat) : Bool :=
  c.month == m

end Calendar

namespace ListView

/-- The `status` enum of the `Appointment` interface in `Layout.tsx`:
`"Pending" | "Confirmed" | "Completed" | "Cancelled"`. -/
inductive LStatus where
  | pending
  | confirmed
  | completed
  | cancelled
deriving DecidableEq, Repr

/-- The string value behind each status, as compared by the sort. -/
def LStatus.text : LStatus → String
  | .pending => "Pending"
  | .confirmed => "Confirmed"
  | .completed => "Completed"
  | .cancelled => "Cancelled"

/-- The `Appointment` interface used by the appointment list view in
`Layout.tsx`.  Optional (`?:`) fields are `Option`; `createdAt` is a
timestamp. -/
structure Appointment where
  id : String
  userId : String
  userName : Option String
  date : String
  time : String
  status : LStatus
  serviceType : Option String
  notes : Option String
  createdAt : Option Nat
deriving DecidableEq, Repr

/-- `keyof Appointment`: the sortable column keys. -/
inductive SortKey where
  | id
  | userId
  | userName
  | date
  | time
  | status
  | serviceType
  | notes
  | createdAt
deriving DecidableEq, Repr

/-- A JS value as it enters the comparator `a[key] < b[key]`: a string,
a numeric timestamp, or `undefined` (absent optional field). -/
inductive FieldVal where
  | str (s : String)
  | num (n : Nat)
  | undefinedVal
deriving DecidableEq, Repr

/-- `a[key]` for each column key. -/
def fieldVal (a : Appointment) : SortKey → FieldVal
  | .id => .str a.id
  | .userId => .str a.userId
  | .userName => match a.userName with | some s => .str s | none => .undefinedVal
  | .date => .str a.date
  | .time => .str a.time
  | .status => .str a.status.text
  | .serviceType => match a.serviceType with | some s => .str s | none => .undefinedVal
  | .notes => match a.notes with | some s => .str s | none => .undefinedVal
  | .createdAt => match a.createdAt with | some n => .num n | none => .undefinedVal

/-- Lexicographic strict comparison of character lists (JS compares
strings code unit by code unit). -/
def charListLtB : List Char → List Char → Bool
  | [], [] => false
  | [], _ :: _ => true
  | _ :: _, [] => false
  | a :: as, b :: bs =>
    if a < b then true else if b < a then false else charListLtB as bs

/-- JS `<` on two strings. -/
def strLtB (a b : String) : Bool :=
  charListLtB a.data b.data

/-- JS `<` on the values a single column produces: strings compare
lexicographically, numbers numerically, and any comparison involving
`undefined` is `false` (`undefined` coerces to `NaN`).  A string never
meets a number under the same key, so no numeric coercion of strings is
modelled. -/
def ltB : FieldVal → FieldVal → Bool
  | .str a, .str b => strLtB a b
  | .num a, .num b => decide (a < b)
  | _, _ => false

/-- Sort direction. -/
inductive Direction where
  | ascending
  | descending
deriving DecidableEq, Repr

/-- The `sortConfig` state: active column key and direction. -/
structure SortConfig where
  key : SortKey
  direction : Direction
deriving DecidableEq, Repr

/-- The comparator passed to `Array.prototype.sort`:
`-1` / `1` when `a[key] < b[key]` / `>` (signs swapped when descending),
`0` otherwise. -/
def cmpApp (c : SortConfig) (a b : Appointment) : Int :=
  if ltB (fieldVal a c.key) (fieldVal b c.key) then
    (if c.direction = .ascending then -1 else 1)
  else if ltB (fieldVal b c.key) (fieldVal a c.key) then
    (if c.direction = .ascending then 1 else -1)
  else 0

/-- "`a` need not come after `b`": the comparator is non-positive.  A
stable sort with comparator `cmpApp` is a stable merge sort with this
`le`. -/
def leB (c : SortConfig) (a b : Appointment) : Bool :=
  decide (cmpApp c a b ≤ 0)

/-- The `sortedAppointments` memo: copy the array and, when a sort config
is set, stably sort it with the comparator (`Array.prototype.sort` is
stable). -/
def sortedAppointments (appointments : List Appointment)
    (sortConfig : Option SortConfig) : List Appointment :=
  match sortConfig with
  | none => appointments
  | some c => appointments.mergeSort (leB c)

/-- `requestSort`: direction defaults to ascending and becomes descending
exactly when the clicked key is the active one and currently ascending. -/
def requestSort (sortConfig : Option SortConfig) (key : SortKey) : SortConfig :=
  let direction : Direction :=
    match sortConfig with
    | some c => if c.key = key ∧ c.direction = .ascending then .descending else .ascending
    | none => .ascending
  ⟨key, direction⟩

/-- The keys whose column values can be `undefined` (optional fields of
the interface). -/
def nullableKey : SortKey → Bool
  | .userName => true
  | .serviceType => true
  | .notes => true
  | .createdAt => true
  | _ => false

end ListView

/-! ### Concrete records used in witnesses and counterexamples -/

/-- A baseline appointment record. -/
def sampleApp : EAM.Appointment :=
  { id := "a1"
    adminNotes := none
    amount := 0
    appointmentDate := none
    cancellationReason := none
    cancelledAt := none
    confirmedAt := none
    createdAt := some 0
    duration := 30
    notes := none
    paidAt := none
    paymentMethod := "card"
    paymentStatus := .pending
    paymentTransactionId := "t1"
    serviceCategory := "derm"
    serviceId := "s1"
    serviceName := "Consultation"
    status := .pending
    timeSlot := "09:00"
    updatedAt := some 0
    userEmail := "jane@example.com"
    userId := "u1"
    userName := "Jane"
    userPhone := "000" }

/-- A completed appointment whose `confirmedAt` is null. -/
def completedNoConfirm : EAM.Appointment :=
  { sampleApp with status := .completed, confirmedAt := none }

/-- An appointment priced at five cents (R0.05). -/
def appTiny : EAM.Appointment := { sampleApp with amount := 1/20 }

/-- A baseline record for the list view of `Layout.tsx`. -/
def sampleRow : ListView.Appointment :=
  { id := "x0"
    userId := "u1"
    userName := some "b"
    date := "2025-01-01"
    time := "09:00"
    status := .pending
    serviceType := none
    notes := none
    createdAt := none }

/-- `userName = "a"`. -/
def rowA0 : ListView.Appointment := { sampleRow with id := "x1", userName := some "a" }

/-- `userName = "b"`. -/
def rowB : ListView.Appointment := { sampleRow with id := "x2", userName := some "b" }

/-- `userName = undefined`. -/
def rowU : ListView.Appointment := { sampleRow with id := "x3", userName := none }

/-- `userName = "a"`, listed after `rowU`. -/
def rowA1 : ListView.Appointment := { sampleRow with id := "x4", userName := some "a" }

/-! ### Helper lemmas -/

lemma foldl_add_eq_sum (l : List EAM.Appointment) (s : ℚ) :
    l.foldl (fun acc a => acc + a.amount) s = s + (l.map (fun a => a.amount)).sum := by
  induction l generalizing s with
  | nil => simp
  | cons x xs ih => simp [ih, add_assoc]

lemma ratFloor_eq_intFloor (q : ℚ) : Rat.floor q = ⌊q⌋ := by
  rw [Rat.floor_def', Rat.floor_def]

lemma jsRound_nonneg_eq (q : ℚ) (k : ℤ) (h0 : 0 ≤ q) (h1 : (k : ℚ) ≤ q + 1/2)
    (h2 : q + 1/2 < k + 1) : EAM.jsRound q = k := by
  rw [EAM.jsRound, if_neg (not_lt.2 h0), ratFloor_eq_intFloor]
  exact Int.floor_eq_iff.2 ⟨h1, h2⟩

lemma jsRound_natCast (n : ℕ) : EAM.jsRound ((n : ℚ)) = n := by
  refine jsRound_nonneg_eq _ _ (by positivity) ?_ ?_ <;> push_cast <;> linarith

lemma charListLtB_irrefl : ∀ l, ListView.charListLtB l l = false := by
  intro l
  induction l with
  | nil => rfl
  | cons a as ih => simp [ListView.charListLtB, ih]

lemma charListLtB_trans :
    ∀ x y z, ListView.charListLtB x y = true → ListView.charListLtB y z = true →
      ListView.charListLtB x z = true := by
  intro x
  induction x with
  | nil =>
    intro y z hxy hyz
    cases y <;> cases z <;> simp_all [ListView.charListLtB]
  | cons a as ih =>
    intro y z hxy hyz
    cases y with
    | nil => simp [ListView.charListLtB] at hxy
    | cons b bs =>
      cases z with
      | nil => simp [ListView.charListLtB] at hyz
      | cons c cs =>
        simp only [ListView.charListLtB] at hxy hyz ⊢
        by_cases hab : a < b
        · by_cases hbc : b < c
          · simp [lt_trans hab hbc]
          · by_cases hcb : c < b
            · simp [hbc, hcb] at hyz
            · have hbce : b = c := le_antisymm (not_lt.1 hcb) (not_lt.1 hbc)
              simp [hbce ▸ hab]
        · by_cases hba : b < a
          · simp [hab, hba] at hxy
          · have habe : a = b := le_antisymm (not_lt.1 hba) (not_lt.1 hab)
            subst habe
            simp only [lt_irrefl, if_neg (lt_irrefl a), if_false] at hxy
            by_cases hac : a < c
            · simp [hac]
            · by_cases hca : c < a
              · simp [hac, hca] at hyz
              · simp only [if_neg hac, if_neg hca] at hyz ⊢
                exact ih bs cs hxy hyz

lemma charListLtB_total :
    ∀ x y, ListView.charListLtB x y = true ∨ ListView.charListLtB y x = true ∨ x = y := by
  intro x
  induction x with
  | nil =>
    intro y
    cases y with
    | nil => right; right; rfl
    | cons b bs => left; rfl
  | cons a as ih =>
    intro y
    cases y with
    | nil => right; left; rfl
    | cons b bs =>
      rcases lt_trichotomy a b with h | h | h
      · left; simp [ListView.charListLtB, h]
      · subst h
        rcases ih bs with h' | h' | h'
        · left; simp [ListView.charListLtB, h']
        · right; left; simp [ListView.charListLtB, h']
        · right; right; rw [h']
      · right; left; simp [ListView.charListLtB, h]

lemma charListLtB_asymm :
    ∀ x y, ListView.charListLtB x y = true → ListView.charListLtB y x = false := by
  intro x y h
  by_contra h'
  have h'' : ListView.charListLtB y x = true := by
    simpa using h'
  have := charListLtB_trans x y x h h''
  rw [charListLtB_irrefl] at this
  exact Bool.false_ne_true this

lemma ltB_irrefl : ∀ v, ListView.ltB v v = false := by
  intro v
  cases v with
  | str s => simp [ListView.ltB, ListView.strLtB, charListLtB_irrefl]
  | num n => simp [ListView.ltB]
  | undefinedVal => rfl

lemma ltB_asymm : ∀ u v, ListView.ltB u v = true → ListView.ltB v u = false := by
  intro u v h
  cases u <;> cases v <;> simp_all [ListView.ltB, ListView.strLtB]
  · exact charListLtB_asymm _ _ h
  · omega

lemma ltB_str_neg_trans {x y z : String} (h1 : ListView.ltB (.str y) (.str x) = false)
    (h2 : ListView.ltB (.str z) (.str y) = false) :
    ListView.ltB (.str z) (.str x) = false := by
  simp only [ListView.ltB, ListView.strLtB] at h1 h2 ⊢
  by_contra hzx
  have hzx' : ListView.charListLtB z.data x.data = true := by simpa using hzx
  rcases charListLtB_total x.data y.data with h | h | h
  · have := charListLtB_trans _ _ _ hzx' h
    rw [h2] at this
    exact Bool.false_ne_true this
  · rw [h1] at h
    exact Bool.false_ne_true h
  · rw [← h] at h2
    rw [h2] at hzx'
    exact Bool.false_ne_true hzx'

lemma fieldVal_str_of_not_nullable (a : ListView.Appointment) (k : ListView.SortKey)
    (hk : ListView.nullableKey k = false) : ∃ s, ListView.fieldVal a k = .str s := by
  cases k <;> simp_all [ListView.nullableKey, ListView.fieldVal]

lemma leB_asc (k : ListView.SortKey) (a b : ListView.Appointment) :
    ListView.leB ⟨k, .ascending⟩ a b
      = ! ListView.ltB (ListView.fieldVal b k) (ListView.fieldVal a k) := by
  simp only [ListView.leB, ListView.cmpApp]
  by_cases h1 : ListView.ltB (ListView.fieldVal a k) (ListView.fieldVal b k)
  · rw [ltB_asymm _ _ h1]
    simp [h1]
  · by_cases h2 : ListView.ltB (ListView.fieldVal b k) (ListView.fieldVal a k) <;>
      simp [h1, h2]

lemma leB_desc (k : ListView.SortKey) (a b : ListView.Appointment) :
    ListView.leB ⟨k, .descending⟩ a b
      = ! ListView.ltB (ListView.fieldVal a k) (ListView.fieldVal b k) := by
  simp only [ListView.leB, ListView.cmpApp]
  by_cases h1 : ListView.ltB (ListView.fieldVal a k) (ListView.fieldVal b k)
  · rw [ltB_asymm _ _ h1]
    simp [h1]
  · by_cases h2 : ListView.ltB (ListView.fieldVal b k) (ListView.fieldVal a k) <;>
      simp [h1, h2]

lemma leB_total (c : ListView.SortConfig) :
    ∀ a b, ListView.leB c a b || ListView.leB c b a := by
  intro a b
  obtain ⟨k, dir⟩ := c
  cases dir with
  | ascending =>
    rw [leB_asc, leB_asc]
    by_cases h : ListView.ltB (ListView.fieldVal b k) (ListView.fieldVal a k)
    · rw [ltB_asymm _ _ h]
      simp
    · simp [h]
  | descending =>
    rw [leB_desc, leB_desc]
    by_cases h : ListView.ltB (ListView.fieldVal a k) (ListView.fieldVal b k)
    · rw [ltB_asymm _ _ h]
      simp
    · simp [h]

lemma leB_trans (k : ListView.SortKey) (dir : ListView.Direction)
    (hk : ListView.nullableKey k = false) :
    ∀ a b c, ListView.leB ⟨k, dir⟩ a b → ListView.leB ⟨k, dir⟩ b c →
      ListView.leB ⟨k, dir⟩ a c := by
  intro a b c hab hbc
  obtain ⟨sa, ha⟩ := fieldVal_str_of_not_nullable a k hk
  obtain ⟨sb, hb⟩ := fieldVal_str_of_not_nullable b k hk
  obtain ⟨sc, hc⟩ := fieldVal_str_of_not_nullable c k hk
  cases dir with
  | ascending =>
    rw [leB_asc, ha, hb] at hab
    rw [leB_asc, hb, hc] at hbc
    rw [leB_asc, ha, hc]
    simp only [Bool.not_eq_true'] at hab hbc ⊢
    exact ltB_str_neg_trans hab hbc
  | descending =>
    rw [leB_desc, ha, hb] at hab
    rw [leB_desc, hb, hc] at hbc
    rw [leB_desc, ha, hc]
    simp only [Bool.not_eq_true'] at hab hbc ⊢
    exact ltB_str_neg_trans hbc hab

lemma daysInMonthCount_ge (y m : Nat) : 28 ≤ Calendar.daysInMonthCount y m := by
  unfold Calendar.daysInMonthCount
  split <;> (try split) <;> omega

lemma monthsSum (y : Nat) :
    Calendar.daysBeforeMonth y 11 + Calendar.daysInMonthCount y 11
      = Calendar.daysInYear y := by
  have e : Calendar.daysBeforeMonth y 11
      = 0 + 31 + (if Calendar.isLeap y then 29 else 28) + 31 + 30 + 31 + 30 + 31
        + 31 + 30 + 31 + 30 := rfl
  have e2 : Calendar.daysInMonthCount y 11 = 31 := rfl
  have e3 : Calendar.daysInYear y = 365 + (if Calendar.isLeap y then 1 else 0) := rfl
  rw [e, e2, e3]
  by_cases hc : Calendar.isLeap y = true <;> simp [hc]

lemma dayNumber_mk (y m d : Nat) :
    Calendar.dayNumber ⟨y, m, d⟩
      = Calendar.daysBeforeYear y + Calendar.daysBeforeMonth y m + (d - 1) := rfl

lemma daysBeforeMonth_succ (y m : Nat) :
    Calendar.daysBeforeMonth y (m + 1)
      = Calendar.daysBeforeMonth y m + Calendar.daysInMonthCount y m := rfl

lemma daysBeforeYear_succ (y : Nat) :
    Calendar.daysBeforeYear (y + 1)
      = Calendar.daysBeforeYear y + Calendar.daysInYear y := rfl

lemma dayNumber_backFrom1st (y m i : Nat) (hy : 1 ≤ y) (hi1 : 1 ≤ i) (hi2 : i ≤ 28) :
    Calendar.dayNumber (Calendar.backFrom1st y m i) + i = Calendar.dayNumber ⟨y, m, 1⟩ := by
  cases m with
  | zero =>
    obtain ⟨y', rfl⟩ : ∃ y', y = y' + 1 := ⟨y - 1, by omega⟩
    have hL := daysInMonthCount_ge y' 11
    have hs := monthsSum y'
    have e0 : Calendar.daysBeforeMonth (y' + 1) 0 = 0 := rfl
    show Calendar.dayNumber ⟨y', 11, Calendar.daysInMonthCount y' 11 + 1 - i⟩ + i = _
    rw [dayNumber_mk, dayNumber_mk, daysBeforeYear_succ, e0]
    omega
  | succ m' =>
    have hL := daysInMonthCount_ge y m'
    show Calendar.dayNumber ⟨y, m', Calendar.daysInMonthCount y m' + 1 - i⟩ + i = _
    rw [dayNumber_mk, dayNumber_mk, daysBeforeMonth_succ]
    omega

lemma dayNumber_nextDay (c : Calendar.CDate) (h1 : 1 ≤ c.day)
    (h2 : c.day ≤ Calendar.daysInMonthCount c.year c.month) :
    Calendar.dayNumber (Calendar.nextDay c) = Calendar.dayNumber c + 1 := by
  obtain ⟨y, m, d⟩ := c
  simp only at h1 h2
  rw [Calendar.nextDay]
  by_cases hd : d < Calendar.daysInMonthCount y m
  · rw [if_pos hd]
    show Calendar.dayNumber ⟨y, m, d + 1⟩ = _
    rw [dayNumber_mk, dayNumber_mk]
    omega
  · rw [if_neg hd]
    have hdL : d = Calendar.daysInMonthCount y m := by omega
    subst hdL
    by_cases hm : m = 11
    · subst hm
      have e0 : Calendar.daysBeforeMonth (y + 1) 0 = 0 := rfl
      have ec : Calendar.daysInMonthCount y 11 = 31 := rfl
      show Calendar.dayNumber ⟨y + 1, 0, 1⟩ = _
      rw [dayNumber_mk, dayNumber_mk, daysBeforeYear_succ, e0]
      have hs := monthsSum y
      omega
    · rw [Calendar.nextMonthOf, if_neg hm]
      show Calendar.dayNumber ⟨y, m + 1, 1⟩ = _
      rw [dayNumber_mk, dayNumber_mk, daysBeforeMonth_succ]
      have hL := daysInMonthCount_ge y m
      omega

lemma nthNext_day (y m : Nat) (j : Nat) :
    ∀ d, 1 ≤ d → d + j ≤ Calendar.daysInMonthCount y m →
      Calendar.nthNext j ⟨y, m, d⟩ = ⟨y, m, d + j⟩ := by
  induction j with
  | zero => intro d _ _; rfl
  | succ j ih =>
    intro d hd1 hdj
    have hlt : d < Calendar.daysInMonthCount y m := by omega
    show Calendar.nthNext j (Calendar.nextDay ⟨y, m, d⟩) = _
    rw [Calendar.nextDay, if_pos hlt]
    rw [ih (d + 1) (by omega) (by omega)]
    congr 1
    omega

lemma nextDay_last (y m : Nat) :
    Calendar.nextDay ⟨y, m, Calendar.daysInMonthCount y m⟩
      = ⟨(Calendar.nextMonthOf y m).1, (Calendar.nextMonthOf y m).2, 1⟩ := by
  rcases h : Calendar.nextMonthOf y m with ⟨ny, nm⟩
  rw [Calendar.nextDay]
  dsimp only
  rw [if_neg (lt_irrefl _), h]

lemma nthNext_from_last (y m j : Nat) (hj1 : 1 ≤ j) (hj2 : j ≤ 28) :
    Calendar.nthNext j ⟨y, m, Calendar.daysInMonthCount y m⟩
      = ⟨(Calendar.nextMonthOf y m).1, (Calendar.nextMonthOf y m).2, j⟩ := by
  obtain ⟨j', rfl⟩ : ∃ j', j = j' + 1 := ⟨j - 1, by omega⟩
  show Calendar.nthNext j' (Calendar.nextDay ⟨y, m, Calendar.daysInMonthCount y m⟩) = _
  rw [nextDay_last]
  have hL := daysInMonthCount_ge (Calendar.nextMonthOf y m).1 (Calendar.nextMonthOf y m).2
  rw [nthNext_day _ _ j' 1 (by omega) (by omega)]
  congr 1
  omega

lemma padWhile_closed :
    ∀ (fuel : Nat) (acc : List Calendar.CDate) (last : Calendar.CDate),
      acc.getLast? = some last → (7 - acc.length % 7) % 7 ≤ fuel →
      Calendar.padWhile fuel acc
        = acc ++ (List.range ((7 - acc.length % 7) % 7)).map
            (fun j => Calendar.nthNext (j + 1) last) := by
  intro fuel
  induction fuel with
  | zero =>
    intro acc last _ hle
    have hk : (7 - acc.length % 7) % 7 = 0 := by omega
    rw [hk]
    simp [Calendar.padWhile]
  | succ fuel ih =>
    intro acc last h hle
    rw [Calendar.padWhile]
    by_cases h7 : acc.length % 7 = 0
    · rw [if_pos h7]
      have hk : (7 - acc.length % 7) % 7 = 0 := by omega
      rw [hk]
      simp
    · rw [if_neg h7, h]
      show Calendar.padWhile fuel (acc ++ [Calendar.nextDay last]) = _
      have hglast : (acc ++ [Calendar.nextDay last]).getLast? = some (Calendar.nextDay last) :=
        List.getLast?_concat acc
      have hlen : (acc ++ [Calendar.nextDay last]).length = acc.length + 1 := by
        simp
      have hk1 : 1 ≤ (7 - acc.length % 7) % 7 := by omega
      have hle' : (7 - (acc.length + 1) % 7) % 7 ≤ fuel := by omega
      rw [ih (acc ++ [Calendar.nextDay last]) (Calendar.nextDay last) hglast
        (by rw [hlen]; exact hle')]
      rw [hlen]
      obtain ⟨k', hk'⟩ : ∃ k', (7 - acc.length % 7) % 7 = k' + 1 :=
        ⟨(7 - acc.length % 7) % 7 - 1, by omega⟩
      have hk2 : (7 - (acc.length + 1) % 7) % 7 = k' := by omega
      rw [hk', hk2, List.range_succ_eq_map]
      simp only [List.map_cons, List.map_map]
      rw [List.append_assoc]
      rfl

lemma monthGrid_eq (y m : Nat) :
    Calendar.monthGrid y m
      = (List.range (Calendar.dayOfWeek ⟨y, m, 1⟩)).map
          (fun j => Calendar.backFrom1st y m (Calendar.dayOfWeek ⟨y, m, 1⟩ - j))
        ++ (List.range (Calendar.daysInMonthCount y m)).map
          (fun i => (⟨y, m, i + 1⟩ : Calendar.CDate))
        ++ (List.range ((7 - (Calendar.dayOfWeek ⟨y, m, 1⟩
              + Calendar.daysInMonthCount y m) % 7) % 7)).map
          (fun j => (⟨(Calendar.nextMonthOf y m).1, (Calendar.nextMonthOf y m).2,
            j + 1⟩ : Calendar.CDate)) := by
  have hL := daysInMonthCount_ge y m
  obtain ⟨L', hL'⟩ : ∃ L', Calendar.daysInMonthCount y m = L' + 1 :=
    ⟨Calendar.daysInMonthCount y m - 1, by omega⟩
  have hbase : ((List.range (Calendar.dayOfWeek ⟨y, m, 1⟩)).map
        (fun j => Calendar.backFrom1st y m (Calendar.dayOfWeek ⟨y, m, 1⟩ - j))
      ++ (List.range (Calendar.daysInMonthCount y m)).map
        (fun i => (⟨y, m, i + 1⟩ : Calendar.CDate))).getLast?
      = some ⟨y, m, Calendar.daysInMonthCount y m⟩ := by
    rw [hL', List.range_succ, List.map_append, ← List.append_assoc]
    simp [List.getLast?_concat]
  have hlen : ((List.range (Calendar.dayOfWeek ⟨y, m, 1⟩)).map
        (fun j => Calendar.backFrom1st y m (Calendar.dayOfWeek ⟨y, m, 1⟩ - j))
      ++ (List.range (Calendar.daysInMonthCount y m)).map
        (fun i => (⟨y, m, i + 1⟩ : Calendar.CDate))).length
      = Calendar.dayOfWeek ⟨y, m, 1⟩ + Calendar.daysInMonthCount y m := by
    simp
  show Calendar.padWhile 7
      ((List.range (Calendar.dayOfWeek ⟨y, m, 1⟩)).map
        (fun j => Calendar.backFrom1st y m (Calendar.dayOfWeek ⟨y, m, 1⟩ - j))
      ++ (List.range (Calendar.daysInMonthCount y m)).map
        (fun i => (⟨y, m, i + 1⟩ : Calendar.CDate))) = _
  rw [padWhile_closed 7 _ _ hbase (by rw [hlen]; omega), hlen]
  congr 1
  refine List.map_congr_left ?_
  intro j hj
  have hjk := List.mem_range.1 hj
  exact nthNext_from_last y m (j + 1) (by omega) (by omega)

lemma dayOfWeek_eq (c : Calendar.CDate) :
    Calendar.dayOfWeek c = (Calendar.dayNumber c + 6) % 7 := rfl

lemma dayOfWeek_lt (c : Calendar.CDate) : Calendar.dayOfWeek c < 7 :=
  Nat.mod_lt _ (by norm_num)

lemma head?_map_range_succ (f : Nat → Calendar.CDate) (n : Nat) :
    ((List.range (n + 1)).map f).head? = some (f 0) := by
  rw [List.range_succ_eq_map]
  simp

lemma getLast?_map_range_succ (f : Nat → Calendar.CDate) (n : Nat) :
    ((List.range (n + 1)).map f).getLast? = some (f n) := by
  rw [List.range_succ, List.map_append]
  simp

lemma chain'_dayNumber_map_range (f : Nat → Calendar.CDate) (n : Nat)
    (h : ∀ j, j + 1 < n → Calendar.dayNumber (f (j + 1)) = Calendar.dayNumber (f j) + 1) :
    List.Chain' (fun a b => Calendar.dayNumber b = Calendar.dayNumber a + 1)
      ((List.range n).map f) := by
  rw [List.chain'_map]
  cases n with
  | zero => simp
  | succ n' =>
    rw [List.chain'_range_succ]
    intro j hj
    exact h j (by omega)

lemma backFrom1st_eq (y m i : Nat) :
    Calendar.backFrom1st y m i
      = ⟨(Calendar.prevMonthOf y m).1, (Calendar.prevMonthOf y m).2,
          Calendar.daysInMonthCount (Calendar.prevMonthOf y m).1
            (Calendar.prevMonthOf y m).2 + 1 - i⟩ := by
  rcases h : Calendar.prevMonthOf y m with ⟨py, pm⟩
  rw [Calendar.backFrom1st, h]

lemma prevMonthOf_ne (y m : Nat) : (Calendar.prevMonthOf y m).2 ≠ m := by
  rw [Calendar.prevMonthOf]
  by_cases h : m = 0
  · simp [h]
  · simp only [if_neg h]
    omega

lemma nextMonthOf_ne (y m : Nat) : (Calendar.nextMonthOf y m).2 ≠ m := by
  rw [Calendar.nextMonthOf]
  by_cases h : m = 11
  · simp [h]
  · simp only [if_neg h]
    omega

lemma base_getLast (y m : Nat) :
    (((List.range (Calendar.dayOfWeek ⟨y, m, 1⟩)).map
        (fun j => Calendar.backFrom1st y m (Calendar.dayOfWeek ⟨y, m, 1⟩ - j)))
      ++ (List.range (Calendar.daysInMonthCount y m)).map
        (fun i => (⟨y, m, i + 1⟩ : Calendar.CDate))).getLast?
    = some ⟨y, m, Calendar.daysInMonthCount y m⟩ := by
  have hL := daysInMonthCount_ge y m
  obtain ⟨L', hL'⟩ : ∃ L', Calendar.daysInMonthCount y m = L' + 1 :=
    ⟨Calendar.daysInMonthCount y m - 1, by omega⟩
  rw [hL', List.range_succ, List.map_append, ← List.append_assoc]
  simp

/-! ### Claims -/

/-- C1 (counterexample): the claimed pending-view membership condition is
violated by a `completed` appointment whose `confirmedAt` is null — the
code's filter admits it to the pending bucket, the claim excludes it. -/
theorem pendingView_counterexample :
    ¬ (completedNoConfirm ∈ EAM.filteredAppointments [completedNoConfirm] .pending "" ↔
        ((completedNoConfirm.status = .pending ∨ completedNoConfirm.confirmedAt = none)
          ∧ completedNoConfirm.status ≠ .completed
          ∧ completedNoConfirm.status ≠ .cancelled)) := by
  decide

/-- C1 (amended): with an empty search term, the pending view contains an
appointment iff it is in the list and has `status = "pending"` or a null
`confirmedAt`; `completed`/`cancelled` appointments are *not* excluded
when their `confirmedAt` is null. -/
theorem pendingView_membership :
    ∀ (apps : List EAM.Appointment) (a : EAM.Appointment),
      a ∈ EAM.filteredAppointments apps .pending "" ↔
        a ∈ apps ∧ (a.status = .pending ∨ a.confirmedAt = none) := by
  intro apps a
  simp [EAM.filteredAppointments, List.mem_filter]

/-- C2: for every year and month (0-based), the generated calendar grid
has length a multiple of 7, its first cell is a Sunday and its last a
Saturday, consecutive cells are consecutive calendar days, the cells
marked current-month are exactly the days 1..last of the target month in
order (so each day of the month appears, marked, exactly once, and every
other cell is marked non-current-month), and each day of the target month
occurs exactly once in the whole grid. -/
theorem monthGrid_spec :
    ∀ (y m : Nat), 1 ≤ y → m < 12 →
      (Calendar.monthGrid y m).length % 7 = 0
      ∧ (∀ c, (Calendar.monthGrid y m).head? = some c → Calendar.dayOfWeek c = 0)
      ∧ (∀ c, (Calendar.monthGrid y m).getLast? = some c → Calendar.dayOfWeek c = 6)
      ∧ List.Chain' (fun a b => Calendar.dayNumber b = Calendar.dayNumber a + 1)
          (Calendar.monthGrid y m)
      ∧ (Calendar.monthGrid y m).filter (fun c => Calendar.isCurrentMonth c m)
          = (List.range (Calendar.daysInMonthCount y m)).map
              (fun i => (⟨y, m, i + 1⟩ : Calendar.CDate))
      ∧ (∀ d, 1 ≤ d → d ≤ Calendar.daysInMonthCount y m →
          (Calendar.monthGrid y m).count (⟨y, m, d⟩ : Calendar.CDate) = 1) := by
  intro y m hy _hm
  have hL := daysInMonthCount_ge y m
  obtain ⟨L', hL'⟩ : ∃ L', Calendar.daysInMonthCount y m = L' + 1 :=
    ⟨Calendar.daysInMonthCount y m - 1, by omega⟩
  have hN : (Calendar.dayNumber ⟨y, m, 1⟩ + 6) % 7 = Calendar.dayOfWeek ⟨y, m, 1⟩ := rfl
  have hd07 : Calendar.dayOfWeek ⟨y, m, 1⟩ < 7 := dayOfWeek_lt _
  have hG := monthGrid_eq y m
  have hmid : ∀ d : Nat, Calendar.dayNumber (⟨y, m, d⟩ : Calendar.CDate)
      = Calendar.dayNumber ⟨y, m, 1⟩ + (d - 1) := by
    intro d
    rw [dayNumber_mk, dayNumber_mk]
    omega
  have hnext1 : Calendar.dayNumber ⟨(Calendar.nextMonthOf y m).1,
        (Calendar.nextMonthOf y m).2, 1⟩
      = Calendar.dayNumber ⟨y, m, Calendar.daysInMonthCount y m⟩ + 1 := by
    have h := dayNumber_nextDay ⟨y, m, Calendar.daysInMonthCount y m⟩
      (by show 1 ≤ Calendar.daysInMonthCount y m; omega)
      (by show Calendar.daysInMonthCount y m ≤ _; exact le_refl _)
    rwa [nextDay_last] at h
  have hsufd : ∀ j : Nat, Calendar.dayNumber (⟨(Calendar.nextMonthOf y m).1,
        (Calendar.nextMonthOf y m).2, j + 1⟩ : Calendar.CDate)
      = Calendar.dayNumber ⟨y, m, 1⟩ + Calendar.daysInMonthCount y m + j := by
    intro j
    have h1 : Calendar.dayNumber (⟨(Calendar.nextMonthOf y m).1,
          (Calendar.nextMonthOf y m).2, j + 1⟩ : Calendar.CDate)
        = Calendar.dayNumber ⟨(Calendar.nextMonthOf y m).1,
            (Calendar.nextMonthOf y m).2, 1⟩ + j := by
      rw [dayNumber_mk, dayNumber_mk]
      omega
    rw [h1, hnext1, hmid]
    omega
  have hpre : ∀ j, j < Calendar.dayOfWeek ⟨y, m, 1⟩ →
      Calendar.dayNumber (Calendar.backFrom1st y m (Calendar.dayOfWeek ⟨y, m, 1⟩ - j))
        + (Calendar.dayOfWeek ⟨y, m, 1⟩ - j) = Calendar.dayNumber ⟨y, m, 1⟩ :=
    fun j hj => dayNumber_backFrom1st y m _ hy (by omega) (by omega)
  have hpm := prevMonthOf_ne y m
  have hnm := nextMonthOf_ne y m
  refine ⟨?_, ?_, ?_, ?_, ?_, ?_⟩
  -- length is a multiple of 7
  · rw [hG]
    simp only [List.length_append, List.length_map, List.length_range]
    omega
  -- first cell is a Sunday
  · intro c hc
    rw [hG] at hc
    rcases Nat.eq_zero_or_pos (Calendar.dayOfWeek ⟨y, m, 1⟩) with h0 | h0
    · rw [h0] at hc
      rw [hL'] at hc
      simp only [List.range_zero, List.map_nil, List.nil_append] at hc
      rw [List.range_succ_eq_map] at hc
      simp only [List.map_cons, List.cons_append, List.head?_cons,
        Option.some.injEq] at hc
      rw [← hc, dayOfWeek_eq, hmid]
      omega
    · obtain ⟨n, hn⟩ : ∃ n, Calendar.dayOfWeek ⟨y, m, 1⟩ = n + 1 :=
        ⟨Calendar.dayOfWeek ⟨y, m, 1⟩ - 1, by omega⟩
      rw [hn, List.range_succ_eq_map] at hc
      simp only [List.map_cons, List.cons_append, List.head?_cons,
        Option.some.injEq, Nat.sub_zero] at hc
      have hp0 := hpre 0 (by omega)
      rw [hn] at hp0 hN
      simp only [Nat.sub_zero] at hp0
      rw [← hc, dayOfWeek_eq]
      omega
  -- last cell is a Saturday
  · intro c hc
    rw [hG] at hc
    generalize hk : (7 - (Calendar.dayOfWeek ⟨y, m, 1⟩
        + Calendar.daysInMonthCount y m) % 7) % 7 = k at hc
    cases k with
    | zero =>
      simp only [List.range_zero, List.map_nil, List.append_nil] at hc
      rw [base_getLast y m] at hc
      have hc' : c = ⟨y, m, Calendar.daysInMonthCount y m⟩ := by
        injection hc with h
        exact h.symm
      rw [hc', dayOfWeek_eq, hmid]
      omega
    | succ k' =>
      rw [List.range_succ, List.map_append, ← List.append_assoc] at hc
      simp only [List.map_cons, List.map_nil] at hc
      rw [List.getLast?_concat] at hc
      have hc' : c = ⟨(Calendar.nextMonthOf y m).1,
          (Calendar.nextMonthOf y m).2, k' + 1⟩ := by
        injection hc with h
        exact h.symm
      rw [hc', dayOfWeek_eq, hsufd]
      omega
  -- consecutive cells are consecutive days
  · rw [hG]
    refine List.chain'_append.2 ⟨List.chain'_append.2 ⟨?_, ?_, ?_⟩, ?_, ?_⟩
    · refine chain'_dayNumber_map_range _ _ ?_
      intro j hj
      have ha := hpre j (by omega)
      have hb := hpre (j + 1) (by omega)
      omega
    · refine chain'_dayNumber_map_range _ _ ?_
      intro j hj
      rw [hmid (j + 1 + 1), hmid (j + 1)]
      omega
    · rcases Nat.eq_zero_or_pos (Calendar.dayOfWeek ⟨y, m, 1⟩) with h0 | h0
      · rw [h0]
        simp
      · obtain ⟨n, hn⟩ : ∃ n, Calendar.dayOfWeek ⟨y, m, 1⟩ = n + 1 :=
          ⟨Calendar.dayOfWeek ⟨y, m, 1⟩ - 1, by omega⟩
        rw [hn, getLast?_map_range_succ, hL', head?_map_range_succ]
        intro x hx z hz
        simp only [Option.mem_def, Option.some.injEq] at hx hz
        subst hx
        subst hz
        have hp := hpre n (by omega)
        have he : Calendar.dayOfWeek ⟨y, m, 1⟩ - n = 1 := by omega
        rw [he] at hp
        have he2 : n + 1 - n = 1 := by omega
        rw [he2, hmid (0 + 1)]
        omega
    · refine chain'_dayNumber_map_range _ _ ?_
      intro j hj
      rw [hsufd (j + 1), hsufd j]
      omega
    · generalize hk : (7 - (Calendar.dayOfWeek ⟨y, m, 1⟩
          + Calendar.daysInMonthCount y m) % 7) % 7 = k
      cases k with
      | zero => simp
      | succ k' =>
        rw [base_getLast y m, head?_map_range_succ]
        intro x hx z hz
        simp only [Option.mem_def, Option.some.injEq] at hx hz
        subst hx
        subst hz
        rw [hnext1]
  · rw [hG]
    rw [List.filter_append, List.filter_append]
    have h1 : List.filter (fun c => Calendar.isCurrentMonth c m)
        ((List.range (Calendar.dayOfWeek ⟨y, m, 1⟩)).map
          (fun j => Calendar.backFrom1st y m (Calendar.dayOfWeek ⟨y, m, 1⟩ - j)))
        = [] := by
      rw [List.filter_eq_nil_iff]
      intro a ha
      obtain ⟨j, _, hj⟩ := List.mem_map.1 ha
      rw [backFrom1st_eq] at hj
      rw [← hj]
      simp [Calendar.isCurrentMonth, hpm]
    have h2 : List.filter (fun c => Calendar.isCurrentMonth c m)
        ((List.range (Calendar.daysInMonthCount y m)).map
          (fun i => (⟨y, m, i + 1⟩ : Calendar.CDate)))
        = (List.range (Calendar.daysInMonthCount y m)).map
          (fun i => (⟨y, m, i + 1⟩ : Calendar.CDate)) := by
      rw [List.filter_eq_self]
      intro a ha
      obtain ⟨i, _, hi⟩ := List.mem_map.1 ha
      rw [← hi]
      simp [Calendar.isCurrentMonth]
    have h3 : List.filter (fun c => Calendar.isCurrentMonth c m)
        ((List.range ((7 - (Calendar.dayOfWeek ⟨y, m, 1⟩
            + Calendar.daysInMonthCount y m) % 7) % 7)).map
          (fun j => (⟨(Calendar.nextMonthOf y m).1, (Calendar.nextMonthOf y m).2,
            j + 1⟩ : Calendar.CDate)))
        = [] := by
      rw [List.filter_eq_nil_iff]
      intro a ha
      obtain ⟨j, _, hj⟩ := List.mem_map.1 ha
      rw [← hj]
      simp [Calendar.isCurrentMonth, hnm]
    rw [h1, h2, h3, List.nil_append, List.append_nil]
  · intro d hd1 hd2
    rw [hG]
    rw [List.count_append, List.count_append]
    have h1 : ((List.range (Calendar.dayOfWeek ⟨y, m, 1⟩)).map
        (fun j => Calendar.backFrom1st y m (Calendar.dayOfWeek ⟨y, m, 1⟩ - j))).count
          (⟨y, m, d⟩ : Calendar.CDate) = 0 := by
      rw [List.count_eq_zero]
      intro hmem
      obtain ⟨j, _, hj⟩ := List.mem_map.1 hmem
      rw [backFrom1st_eq] at hj
      exact hpm (congrArg Calendar.CDate.month hj)
    have h3 : ((List.range ((7 - (Calendar.dayOfWeek ⟨y, m, 1⟩
          + Calendar.daysInMonthCount y m) % 7) % 7)).map
        (fun j => (⟨(Calendar.nextMonthOf y m).1, (Calendar.nextMonthOf y m).2,
          j + 1⟩ : Calendar.CDate))).count (⟨y, m, d⟩ : Calendar.CDate) = 0 := by
      rw [List.count_eq_zero]
      intro hmem
      obtain ⟨j, _, hj⟩ := List.mem_map.1 hmem
      exact hnm (congrArg Calendar.CDate.month hj)
    have h2 : ((List.range (Calendar.daysInMonthCount y m)).map
        (fun i => (⟨y, m, i + 1⟩ : Calendar.CDate))).count
          (⟨y, m, d⟩ : Calendar.CDate) = 1 := by
      refine List.count_eq_one_of_mem ?_ ?_
      · refine List.Nodup.map ?_ (List.nodup_range _)
        intro i j hij
        have := congrArg Calendar.CDate.day hij
        simpa using this
      · refine List.mem_map.2 ⟨d - 1, List.mem_range.2 (by omega), ?_⟩
        have he : d - 1 + 1 = d := by omega
        rw [he]
    rw [h1, h2, h3]

/-- C2 witness. -/
theorem monthGrid_spec_witness :
    1 ≤ 2025 ∧ 9 < 12
    ∧ ((Calendar.monthGrid 2025 9).length % 7 = 0
      ∧ (∀ c, (Calendar.monthGrid 2025 9).head? = some c → Calendar.dayOfWeek c = 0)
      ∧ (∀ c, (Calendar.monthGrid 2025 9).getLast? = some c → Calendar.dayOfWeek c = 6)
      ∧ List.Chain' (fun a b => Calendar.dayNumber b = Calendar.dayNumber a + 1)
          (Calendar.monthGrid 2025 9)
      ∧ (Calendar.monthGrid 2025 9).filter (fun c => Calendar.isCurrentMonth c 9)
          = (List.range (Calendar.daysInMonthCount 2025 9)).map
              (fun i => (⟨2025, 9, i + 1⟩ : Calendar.CDate))
      ∧ (∀ d, 1 ≤ d → d ≤ Calendar.daysInMonthCount 2025 9 →
          (Calendar.monthGrid 2025 9).count (⟨2025, 9, d⟩ : Calendar.CDate) = 1)) :=
  ⟨by omega, by omega, monthGrid_spec 2025 9 (by omega) (by omega)⟩

/-- C3: `stats.totalRevenue` is the sum of `amount` over appointments with
`paymentStatus = "paid"`, and `stats.pendingPayments` the sum over
`paymentStatus = "pending"`, both over the full unfiltered list, for any
active view mode and search term. -/
theorem stats_totals_unfiltered :
    ∀ (apps : List EAM.Appointment) (vm : EAM.ViewMode) (st : String),
      (EAM.statsFor apps vm st).totalRevenue
        = ((apps.filter (fun a => a.paymentStatus == .paid)).map (fun a => a.amount)).sum
      ∧ (EAM.statsFor apps vm st).pendingPayments
        = ((apps.filter (fun a => a.paymentStatus == .pending)).map (fun a => a.amount)).sum := by
  intro apps vm st
  constructor <;> simp [EAM.statsFor, EAM.stats, foldl_add_eq_sum]

/-- C4: a confirmed refund writes exactly `status = "cancelled"`,
`paymentStatus = "refunded"`, the cancellation timestamp, the constant
cancellation reason and the update timestamp; the `amount` field is not
changed and no computed refund amount is persisted; for amount 200 the
confirmation dialog shows fee `R20.00` and refund `R180.00`. -/
theorem handleRefund_write_and_dialog :
    (∀ (a : EAM.Appointment) (now : Nat),
      EAM.handleRefund a true now = some { a with
        paymentStatus := .refunded
        status := .cancelled
        cancelledAt := some now
        cancellationReason := some "Refund requested by patient"
        updatedAt := some now })
    ∧ (∀ (a : EAM.Appointment) (now : Nat) (b : EAM.Appointment),
        EAM.handleRefund a true now = some b → b.amount = a.amount)
    ∧ (∀ a : EAM.Appointment, a.amount = 200 →
        EAM.refundDialog a =
          "Refund R200?\n\nNote: A 10% cancellation fee (R20.00) will be deducted.\nRefund amount: R180.00") := by
  refine ⟨fun a now => rfl, ?_, ?_⟩
  · intro a now b h
    simp only [EAM.handleRefund, if_pos, Option.some.injEq] at h
    subst h
    rfl
  · intro a h
    have e1 : EAM.jsRound ((200 : ℚ) * (1/10) * 100) = 2000 :=
      jsRound_nonneg_eq _ _ (by norm_num) (by norm_num) (by norm_num)
    have e2 : EAM.jsRound ((200 : ℚ) * (9/10) * 100) = 18000 :=
      jsRound_nonneg_eq _ _ (by norm_num) (by norm_num) (by norm_num)
    simp only [EAM.refundDialog, h, EAM.jsNumToString, EAM.toFixed2, e1, e2,
      Rat.den_ofNat, Rat.num_ofNat, if_pos]
    rfl

/-- C4 witness. -/
theorem handleRefund_write_and_dialog_witness :
    ({ sampleApp with amount := 200 } : EAM.Appointment).amount = 200
    ∧ EAM.refundDialog { sampleApp with amount := 200 } =
        "Refund R200?\n\nNote: A 10% cancellation fee (R20.00) will be deducted.\nRefund amount: R180.00" :=
  ⟨rfl, handleRefund_write_and_dialog.2.2 _ rfl⟩

/-- C5 (counterexample): at amount R0.05 the dialog displays a refund of
`0.05` and a fee of `0.01` — each correctly rounded to two decimals — but
their sum is `0.06 ≠ 0.05`, so "displayed refund plus displayed fee
equals A" fails (by a whole cent, beyond any floating-point tolerance). -/
theorem refundSplit_counterexample :
    EAM.toFixed2 (appTiny.amount * (9/10)) = "0.05"
    ∧ EAM.toFixed2 (appTiny.amount * (1/10)) = "0.01"
    ∧ EAM.round2 (appTiny.amount * (9/10)) + EAM.round2 (appTiny.amount * (1/10))
        ≠ appTiny.amount := by
  have e9 : EAM.jsRound ((1/20 : ℚ) * (9/10) * 100) = 5 :=
    jsRound_nonneg_eq _ _ (by norm_num) (by norm_num) (by norm_num)
  have e1 : EAM.jsRound ((1/20 : ℚ) * (1/10) * 100) = 1 :=
    jsRound_nonneg_eq _ _ (by norm_num) (by norm_num) (by norm_num)
  refine ⟨?_, ?_, ?_⟩
  · simp only [appTiny, sampleApp, EAM.toFixed2, e9]
    rfl
  · simp only [appTiny, sampleApp, EAM.toFixed2, e1]
    rfl
  · simp only [appTiny, sampleApp, EAM.round2, e9, e1]
    norm_num

/-- C5 (amended): the dialog's displayed refund and fee are the
two-decimal roundings of `0.9·A` and `0.1·A`; when the amount is a whole
number of rand the displayed refund plus fee equals the amount exactly
(for fractional amounts the sum can differ from `A` by a cent, as the
counterexample at `A = 0.05` shows). -/
theorem refundSplit_amended :
    ∀ (a : EAM.Appointment) (n : ℕ), a.amount = n →
      EAM.toFixed2 (a.amount * (9/10)) = EAM.centsToString (90 * n)
      ∧ EAM.toFixed2 (a.amount * (1/10)) = EAM.centsToString (10 * n)
      ∧ EAM.round2 (a.amount * (9/10)) = ((90 * n : ℕ) : ℚ) / 100
      ∧ EAM.round2 (a.amount * (1/10)) = ((10 * n : ℕ) : ℚ) / 100
      ∧ EAM.round2 (a.amount * (9/10)) + EAM.round2 (a.amount * (1/10)) = a.amount := by
  intro a n h
  have h9 : a.amount * (9/10) * 100 = ((90 * n : ℕ) : ℚ) := by
    rw [h]; push_cast; ring
  have h1 : a.amount * (1/10) * 100 = ((10 * n : ℕ) : ℚ) := by
    rw [h]; push_cast; ring
  have e9 : EAM.jsRound (a.amount * (9/10) * 100) = (90 * n : ℕ) := by
    rw [h9, jsRound_natCast]
  have e1 : EAM.jsRound (a.amount * (1/10) * 100) = (10 * n : ℕ) := by
    rw [h1, jsRound_natCast]
  refine ⟨?_, ?_, ?_, ?_, ?_⟩
  · simp only [EAM.toFixed2, e9]
    norm_cast
  · simp only [EAM.toFixed2, e1]
    norm_cast
  · simp only [EAM.round2, e9]
    push_cast
    ring
  · simp only [EAM.round2, e1]
    push_cast
    ring
  · simp only [EAM.round2]
    rw [e9, e1, h]
    push_cast
    ring

/-- C5 witness. -/
theorem refundSplit_amended_witness :
    ({ sampleApp with amount := 200 } : EAM.Appointment).amount = ((200 : ℕ) : ℚ)
    ∧ EAM.round2 (({ sampleApp with amount := 200 } : EAM.Appointment).amount * (9/10))
        + EAM.round2 (({ sampleApp with amount := 200 } : EAM.Appointment).amount * (1/10))
        = ({ sampleApp with amount := 200 } : EAM.Appointment).amount :=
  ⟨by norm_num, (refundSplit_amended _ 200 (by norm_num)).2.2.2.2⟩

/-- C6: a cancelled or empty decline prompt issues no write; a non-empty
reason writes `status = "cancelled"`, the cancellation timestamp and the
supplied reason (plus the optional admin note and update timestamp). -/
theorem handleDecline_abort_or_write :
    ∀ (a : EAM.Appointment) (notes : String) (now : Nat),
      EAM.handleDecline (some a) none notes now = none
      ∧ EAM.handleDecline (some a) (some "") notes now = none
      ∧ ∀ r : String, r ≠ "" →
          EAM.handleDecline (some a) (some r) notes now = some { a with
            status := .cancelled
            cancelledAt := some now
            cancellationReason := some r
            adminNotes := if notes = "" then none else some notes
            updatedAt := some now } := by
  intro a notes now
  refine ⟨rfl, by simp [EAM.handleDecline], ?_⟩
  intro r hr
  simp [EAM.handleDecline, hr]

/-- C6 witness. -/
theorem handleDecline_abort_or_write_witness :
    ("no show" : String) ≠ ""
    ∧ EAM.handleDecline (some sampleApp) (some "no show") "" 5 = some { sampleApp with
        status := .cancelled
        cancelledAt := some 5
        cancellationReason := some "no show"
        adminNotes := if ("" : String) = "" then none else some ""
        updatedAt := some 5 } :=
  ⟨by decide, (handleDecline_abort_or_write sampleApp "" 5).2.2 "no show" (by decide)⟩

/-- C7: repeating "mark completed" on an already-completed appointment
(with operator confirmation) changes nothing but the update timestamp. -/
theorem markCompleted_idempotent :
    ∀ (a : EAM.Appointment) (now : Nat), a.status = .completed →
      EAM.handleMarkCompleted a true now = some { a with updatedAt := some now } := by
  intro a now h
  cases a
  simp only [EAM.handleMarkCompleted, if_pos]
  simp_all

/-- C7 witness. -/
theorem markCompleted_idempotent_witness :
    completedNoConfirm.status = .completed
    ∧ EAM.handleMarkCompleted completedNoConfirm true 7 =
        some { completedNoConfirm with updatedAt := some 7 } :=
  ⟨rfl, markCompleted_idempotent completedNoConfirm 7 rfl⟩

/-- C8 (counterexample): sorting by the optional `userName` column is not
an ordering by that key.  With rows named "a", "b", `undefined`, "a" (in
that order), the comparator ties `undefined` with everything, the sort
returns the list unchanged, and the row with key "b" precedes a row with
the strictly smaller key "a". -/
theorem sortByKey_counterexample :
    ListView.sortedAppointments [rowA0, rowB, rowU, rowA1] (some ⟨.userName, .ascending⟩)
        = [rowA0, rowB, rowU, rowA1]
    ∧ ListView.ltB (ListView.fieldVal rowA1 .userName) (ListView.fieldVal rowB .userName)
        = true
    ∧ ¬ (ListView.sortedAppointments [rowA0, rowB, rowU, rowA1]
          (some ⟨.userName, .ascending⟩)).Pairwise
        (fun a b => ListView.leB ⟨.userName, .ascending⟩ a b = true) := by
  have hout : ListView.sortedAppointments [rowA0, rowB, rowU, rowA1]
      (some ⟨.userName, .ascending⟩) = [rowA0, rowB, rowU, rowA1] := by
    simp [ListView.sortedAppointments, List.mergeSort, List.merge, ListView.leB,
      ListView.cmpApp, ListView.fieldVal, ListView.ltB, ListView.strLtB,
      ListView.charListLtB, rowA0, rowB, rowU, rowA1, sampleRow]
  refine ⟨hout, by decide, ?_⟩
  rw [hout]
  decide

/-- C8 (amended): for the non-optional column keys (whose values are
always strings — `id`, `userId`, `date`, `time`, `status`), the sort is a
permutation of the input, ordered by the comparator in the requested
direction, and stable: rows with equal key values keep their relative
order.  For optional keys (`userName`, `serviceType`, `notes`,
`createdAt`), `undefined` values tie with everything and the output need
not be ordered by the key.  `requestSort` flips the direction of the
active column and resets any other column to ascending. -/
theorem sortByKey_amended :
    ∀ (apps : List ListView.Appointment) (key : ListView.SortKey)
      (dir : ListView.Direction), ListView.nullableKey key = false →
      (ListView.sortedAppointments apps (some ⟨key, dir⟩)).Perm apps
      ∧ (ListView.sortedAppointments apps (some ⟨key, dir⟩)).Pairwise
          (fun a b => ListView.leB ⟨key, dir⟩ a b = true)
      ∧ (∀ s : ListView.FieldVal,
          (ListView.sortedAppointments apps (some ⟨key, dir⟩)).filter
              (fun x => ListView.fieldVal x key == s)
            = apps.filter (fun x => ListView.fieldVal x key == s))
      ∧ (∀ cfg : ListView.SortConfig, cfg.key = key →
          ListView.requestSort (some cfg) key
            = ⟨key, if cfg.direction = .ascending then .descending else .ascending⟩)
      ∧ (∀ cfg : ListView.SortConfig, cfg.key ≠ key →
          ListView.requestSort (some cfg) key = ⟨key, .ascending⟩)
      ∧ ListView.requestSort none key = ⟨key, .ascending⟩ := by
  intro apps key dir hk
  have htrans := leB_trans key dir hk
  have htotal := leB_total ⟨key, dir⟩
  refine ⟨List.mergeSort_perm apps _, ?_, ?_, ?_, ?_, rfl⟩
  · exact List.sorted_mergeSort htrans htotal apps
  · intro s
    have hpair : (apps.filter (fun x => ListView.fieldVal x key == s)).Pairwise
        (fun a b => ListView.leB ⟨key, dir⟩ a b = true) := by
      refine List.pairwise_of_forall_mem_list ?_
      intro a ha b hb
      rw [List.mem_filter] at ha hb
      have ha' : ListView.fieldVal a key = s := by simpa using ha.2
      have hb' : ListView.fieldVal b key = s := by simpa using hb.2
      cases dir with
      | ascending => rw [leB_asc, ha', hb', ltB_irrefl]; rfl
      | descending => rw [leB_desc, ha', hb', ltB_irrefl]; rfl
    have hsub : List.Sublist (apps.filter (fun x => ListView.fieldVal x key == s))
        (ListView.sortedAppointments apps (some ⟨key, dir⟩)) :=
      List.sublist_mergeSort htrans htotal hpair (List.filter_sublist apps)
    have hperm : List.Perm
        ((ListView.sortedAppointments apps (some ⟨key, dir⟩)).filter
          (fun x => ListView.fieldVal x key == s))
        (apps.filter (fun x => ListView.fieldVal x key == s)) :=
      (List.mergeSort_perm apps _).filter _
    have hsub2 : List.Sublist (apps.filter (fun x => ListView.fieldVal x key == s))
        ((ListView.sortedAppointments apps (some ⟨key, dir⟩)).filter
          (fun x => ListView.fieldVal x key == s)) := by
      have := hsub.filter (fun x => ListView.fieldVal x key == s)
      simpa [Bool.and_self] using this
    exact (hsub2.eq_of_length hperm.length_eq.symm).symm
  · intro cfg hkey
    obtain ⟨k', d'⟩ := cfg
    simp only at hkey
    subst hkey
    cases d' <;> simp [ListView.requestSort]
  · intro cfg hkey
    obtain ⟨k', d'⟩ := cfg
    simp only at hkey
    cases d' <;> simp [ListView.requestSort, hkey]

/-- C8 witness. -/
theorem sortByKey_amended_witness :
    ListView.nullableKey .date = false
    ∧ (ListView.sortedAppointments [rowB, rowA0] (some ⟨.date, .ascending⟩)).Perm
        [rowB, rowA0] :=
  ⟨by decide, (sortByKey_amended [rowB, rowA0] .date .ascending (by decide)).1⟩

/-- C9: approving a pending, unconfirmed appointment with note "ok" writes
`status = "confirmed"`, a non-null `confirmedAt`, `adminNotes = "ok"` and
the update timestamp, and changes no other field. -/
theorem handleApprove_spec :
    ∀ (a : EAM.Appointment) (now : Nat), a.status = .pending → a.confirmedAt = none →
      EAM.handleApprove (some a) "ok" now = some { a with
        status := .confirmed
        confirmedAt := some now
        adminNotes := some "ok"
        updatedAt := some now } := by
  intro a now _ _
  simp only [EAM.handleApprove]
  rw [if_neg (by decide)]

/-- C9 witness. -/
theorem handleApprove_spec_witness :
    sampleApp.status = .pending
    ∧ sampleApp.confirmedAt = none
    ∧ EAM.handleApprove (some sampleApp) "ok" 9 = some { sampleApp with
        status := .confirmed
        confirmedAt := some 9
        adminNotes := some "ok"
        updatedAt := some 9 } :=
  ⟨rfl, rfl, handleApprove_spec sampleApp 9 rfl rfl⟩

/-- C10: `handleRefund` checks no state-based precondition — for every
appointment, whatever its status and payment status, a confirmed refund
writes `status = "cancelled"` and `paymentStatus = "refunded"`; the
"paid and not cancelled" restriction lives only in the visibility guard
of the detail-modal refund button. -/
theorem handleRefund_no_precondition :
    (∀ (a : EAM.Appointment) (now : Nat),
      ∃ b, EAM.handleRefund a true now = some b
        ∧ b.status = .cancelled ∧ b.paymentStatus = .refunded)
    ∧ (∃ a : EAM.Appointment, EAM.refundButtonVisible a = false ∧
        ∀ now, EAM.handleRefund a true now ≠ none) := by
  constructor
  · intro a now
    exact ⟨_, rfl, rfl, rfl⟩
  · refine ⟨{ sampleApp with status := .cancelled, paymentStatus := .refunded }, by decide, ?_⟩
    intro now h
    simp [EAM.handleRefund] at h
